import Mathlib

/-!
Verification of the WolfMUD concurrency / temporal-ordering core against its
natural-language specification.

The development shallowly embeds the relevant Go source:

* `cmd/state.go` (state struct, NewState, parse, sync, CanLock, AddLock)
* `utils/command/command.go` (Command struct, New, Flush, Respond, Broadcast,
  CanLock, AddLock)
* `attr/action.go` (Action attribute: Copy, Action, Abort, Pending)
* `core` combat commands (Hit, createCorpse, Combat)

Go machine values are modelled with `Nat`/`Int`/`String`; Go interface
identity is modelled by structure equality on identity fields; Go maps are
modelled as association lists; fallible or random inputs are passed as
explicit parameters.
-/

/-! ## Inventory lock handles (has.Inventory, consumed by cmd/state.go)

An Inventory handle has a stable identity (Go interface identity, field
`ident`) and a total-order key `lockID` (the `LockID()` method). -/

structure Inventory where
  ident : Nat
  lockID : Nat
deriving DecidableEq, Repr

/-- `state.CanLock` from cmd/state.go: membership of `i` in the lock list,
compared by identity (`i == l` on Go interface values). -/
def CanLock (locks : List Inventory) (i : Inventory) : Bool :=
  locks.any (fun l => i = l)

/-- `state.AddLock` from cmd/state.go. A nil Inventory is `none`. The Go code
appends `i`, then scans from the front for the first element whose `LockID()`
exceeds `i`'s; if found at index `x` it shifts `locks[x:l-1]` up by one with
`copy` (overwriting the appended element) and writes `i` at `x`, which is the
list `locks.take x ++ i :: locks.drop x`; otherwise the appended position is
kept. -/
def AddLock (locks : List Inventory) (i : Option Inventory) : List Inventory :=
  match i with
  | none => locks
  | some i =>
    if CanLock locks i then locks
    else
      let ls := locks ++ [i]
      if ls.length = 1 then ls
      else
        match ls.findIdx? (fun x => decide (i.lockID < x.lockID)) with
        | some x => locks.take x ++ i :: locks.drop x
        | none => ls

/-- Recursive characterisation of the scan-shift-write step of `AddLock`:
insert before the first element with a strictly greater `lockID`. -/
def insertByLockID (i : Inventory) : List Inventory → List Inventory
  | [] => [i]
  | x :: xs => if i.lockID < x.lockID then i :: x :: xs else x :: insertByLockID i xs

/-- A whole sequence of `AddLock` calls with non-nil handles, starting from
the empty lock list a fresh `state` carries. -/
def AddLocks (xs : List Inventory) : List Inventory :=
  xs.foldl (fun acc i => AddLock acc (some i)) []

/-- Ascending `LockID` order between two handles. -/
def lockLT (a b : Inventory) : Prop := a.lockID < b.lockID

instance : DecidableRel lockLT := fun a b => inferInstanceAs (Decidable (a.lockID < b.lockID))

theorem canLock_eq_true_iff (locks : List Inventory) (i : Inventory) :
    CanLock locks i = true ↔ i ∈ locks := by
  simp only [CanLock, List.any_eq_true, decide_eq_true_eq]
  constructor
  · rintro ⟨l, hl, rfl⟩; exact hl
  · intro h; exact ⟨i, h, rfl⟩

theorem addLock_scan_eq_insert (s : List Inventory) (i : Inventory) :
    (match (s ++ [i]).findIdx? (fun x => decide (i.lockID < x.lockID)) with
     | some x => s.take x ++ i :: s.drop x
     | none => s ++ [i]) = insertByLockID i s := by
  induction s with
  | nil => simp [List.findIdx?, insertByLockID]
  | cons a t ih =>
    by_cases h : i.lockID < a.lockID
    · simp [List.findIdx?_cons, h, insertByLockID]
    · simp only [List.cons_append, List.findIdx?_cons, decide_eq_true_eq, h, if_false,
        decide_False, cond_false]
      cases hf : (t ++ [i]).findIdx? (fun x => decide (i.lockID < x.lockID)) with
      | none =>
        simp only [hf, Option.map_none', insertByLockID, if_neg h]
        rw [← ih]
        simp [hf]
      | some y =>
        simp only [hf, Option.map_some', insertByLockID, if_neg h, List.take_succ_cons,
          List.drop_succ_cons, List.cons_append, List.cons.injEq, true_and]
        rw [← ih]
        simp [hf]

theorem addLock_eq_insert (locks : List Inventory) (i : Inventory)
    (h : CanLock locks i = false) : AddLock locks (some i) = insertByLockID i locks := by
  cases locks with
  | nil => simp [AddLock, CanLock, insertByLockID]
  | cons a t =>
    have hlen : ((a :: t) ++ [i]).length ≠ 1 := by
      simp [List.length_append]
    simp only [AddLock, h, Bool.false_eq_true, if_false, hlen, if_neg hlen]
    exact addLock_scan_eq_insert (a :: t) i

theorem insertByLockID_perm (i : Inventory) (s : List Inventory) :
    List.Perm (insertByLockID i s) (i :: s) := by
  induction s with
  | nil => simp [insertByLockID]
  | cons a t ih =>
    by_cases h : i.lockID < a.lockID
    · simp [insertByLockID, h]
    · simp only [insertByLockID, if_neg h]
      exact (ih.cons a).trans (List.Perm.swap i a t)

theorem insertByLockID_sorted (i : Inventory) (s : List Inventory)
    (hs : List.Sorted lockLT s) (hne : ∀ x ∈ s, i.lockID ≠ x.lockID) :
    List.Sorted lockLT (insertByLockID i s) := by
  induction s with
  | nil => simp [insertByLockID, List.Sorted]
  | cons a t ih =>
    rw [List.sorted_cons] at hs
    by_cases h : i.lockID < a.lockID
    · rw [insertByLockID, if_pos h, List.sorted_cons]
      refine ⟨?_, List.sorted_cons.mpr hs⟩
      intro b hb
      rcases List.mem_cons.mp hb with rfl | hb
      · exact h
      · exact lt_trans h (hs.1 b hb)
    · rw [insertByLockID, if_neg h, List.sorted_cons]
      have hai : a.lockID < i.lockID :=
        lt_of_le_of_ne (le_of_not_lt h) fun e => hne a (List.mem_cons_self a t) e.symm
      refine ⟨?_, ih hs.2 fun x hx => hne x (List.mem_cons_of_mem a hx)⟩
      intro b hb
      have hb2 : b ∈ i :: t := (insertByLockID_perm i t).mem_iff.mp hb
      rcases List.mem_cons.mp hb2 with rfl | hb2
      · exact hai
      · exact hs.1 b hb2

theorem addLocks_go_sorted_perm (xs acc : List Inventory)
    (hacc : List.Sorted lockLT acc)
    (hdisj : ∀ a ∈ acc, ∀ x ∈ xs, a.lockID ≠ x.lockID)
    (hxs : xs.Pairwise (fun a b => a.lockID ≠ b.lockID)) :
    List.Sorted lockLT (xs.foldl (fun l i => AddLock l (some i)) acc) ∧
      List.Perm (xs.foldl (fun l i => AddLock l (some i)) acc) (acc ++ xs) := by
  induction xs generalizing acc with
  | nil => simpa using hacc
  | cons i t ih =>
    have hni : i ∉ acc := by
      intro hmem
      exact hdisj i hmem i (List.mem_cons_self i t) rfl
    have hcl : CanLock acc i = false := by
      rw [← Bool.not_eq_true, canLock_eq_true_iff]
      exact hni
    have hstep : AddLock acc (some i) = insertByLockID i acc := addLock_eq_insert acc i hcl
    have hsort1 : List.Sorted lockLT (insertByLockID i acc) :=
      insertByLockID_sorted i acc hacc fun x hx =>
        (hdisj x hx i (List.mem_cons_self i t)).symm
    have hdisj1 : ∀ a ∈ insertByLockID i acc, ∀ x ∈ t, a.lockID ≠ x.lockID := by
      intro a ha x hx
      rcases List.mem_cons.mp ((insertByLockID_perm i acc).mem_iff.mp ha) with rfl | ha
      · exact (List.pairwise_cons.mp hxs).1 x hx
      · exact hdisj a ha x (List.mem_cons_of_mem i hx)
    have hrec := ih (insertByLockID i acc) hsort1 hdisj1 (List.pairwise_cons.mp hxs).2
    refine ⟨?_, ?_⟩
    · simpa [hstep] using hrec.1
    · have hperm : List.Perm (insertByLockID i acc ++ t) (acc ++ i :: t) :=
        ((insertByLockID_perm i acc).append_right t).trans List.perm_middle.symm
      simpa [hstep] using hrec.2.trans hperm

/-- **C1.** For every sequence of `state.AddLock` calls with non-nil Inventory
handles of pairwise-distinct `LockID`, the resulting lock list is sorted
ascending by `LockID`, contains no handle twice (identity equality), and any
permutation of the same handles produces the same final list. -/
theorem state_addLocks_sorted_nodup_perm_invariant (xs ys : List Inventory)
    (hdist : xs.Pairwise (fun a b => a.lockID ≠ b.lockID))
    (hperm : List.Perm xs ys) :
    List.Sorted lockLT (AddLocks xs) ∧ (AddLocks xs).Nodup ∧ AddLocks ys = AddLocks xs := by
  have hx := addLocks_go_sorted_perm xs [] (by simp) (by simp) hdist
  have hydist : ys.Pairwise (fun a b => a.lockID ≠ b.lockID) :=
    (hperm.pairwise_iff fun h => h.symm).mp hdist
  have hy := addLocks_go_sorted_perm ys [] (by simp) (by simp) hydist
  have hxnodup : xs.Nodup :=
    hdist.imp fun h => by intro e; exact h (by rw [e])
  haveI : IsAntisymm Inventory lockLT :=
    ⟨fun a b h1 h2 => absurd (lt_trans h1 h2) (lt_irrefl _)⟩
  refine ⟨hx.1, ?_, ?_⟩
  · exact ((hx.2.trans (by simp)).nodup_iff).mpr hxnodup
  · have hpq : List.Perm (AddLocks ys) (AddLocks xs) := by
      have h1 : List.Perm (AddLocks ys) ys := by simpa [AddLocks] using hy.2
      have h2 : List.Perm (AddLocks xs) xs := by simpa [AddLocks] using hx.2
      exact (h1.trans hperm.symm).trans h2.symm
    exact List.eq_of_perm_of_sorted hpq hy.1 hx.1

/-- Concrete instance of C1: three handles added in two different orders give
the same sorted, duplicate-free lock list. -/
theorem state_addLocks_invariant_witness :
    List.Sorted lockLT (AddLocks [⟨0, 5⟩, ⟨1, 2⟩, ⟨2, 9⟩]) ∧
      (AddLocks [⟨0, 5⟩, ⟨1, 2⟩, ⟨2, 9⟩]).Nodup ∧
      AddLocks [⟨2, 9⟩, ⟨0, 5⟩, ⟨1, 2⟩] = AddLocks [⟨0, 5⟩, ⟨1, 2⟩, ⟨2, 9⟩] :=
  state_addLocks_sorted_nodup_perm_invariant
    [⟨0, 5⟩, ⟨1, 2⟩, ⟨2, 9⟩] [⟨2, 9⟩, ⟨0, 5⟩, ⟨1, 2⟩] (by decide) (by decide)

/-! ## Command.AddLock (utils/command/command.go)

A `thing.Interface` value, identified by its unique ID (`UniqueId()`; the
`IsAlso` identity test compares things by unique ID). -/

structure CmdThing where
  uniqueId : Nat
deriving DecidableEq, Repr

/-- `Command.CanLock` from utils/command/command.go: membership of `t` in the
`Locks` slice, compared with `thing.IsAlso(l)`. -/
def cmdCanLock (locks : List CmdThing) (t : CmdThing) : Bool :=
  locks.any (fun l => t.uniqueId = l.uniqueId)

/-- `Command.AddLock` from utils/command/command.go. The Go code appends `t`,
then, when the slice has more than one element, scans from the front for the
first index `i` with `uid > c.Locks[i].UniqueId()` (the NEW element's unique
ID strictly greater than the existing element's); if found it shifts
`Locks[i:l-1]` up by one with `copy` and writes `t` at `i`. -/
def cmdAddLock (locks : List CmdThing) (t : Option CmdThing) : List CmdThing :=
  match t with
  | none => locks
  | some t =>
    if cmdCanLock locks t then locks
    else
      let ls := locks ++ [t]
      if ls.length ≤ 1 then ls
      else
        match ls.findIdx? (fun x => decide (x.uniqueId < t.uniqueId)) with
        | some i => locks.take i ++ t :: locks.drop i
        | none => ls

/-- Ascending unique-ID order between two things, the order the function's own
documentation promises ("unique Id sequence lowest to highest"). -/
def uniqueIdLT (a b : CmdThing) : Prop := a.uniqueId < b.uniqueId

instance : DecidableRel uniqueIdLT :=
  fun a b => inferInstanceAs (Decidable (a.uniqueId < b.uniqueId))

/-- **C2 failing input.** Starting from an empty `Locks` slice, adding things
with unique IDs 3 then 7 yields `[7, 3]`, which is not sorted ascending by
unique ID: the comparison in the scan loop is inverted with respect to the
function's own documentation, so `Command.AddLock` builds a descending list. -/
theorem command_addLock_not_ascending :
    cmdAddLock (cmdAddLock [] (some ⟨3⟩)) (some ⟨7⟩) = [⟨7⟩, ⟨3⟩] ∧
      ¬ List.Sorted uniqueIdLT (cmdAddLock (cmdAddLock [] (some ⟨3⟩)) (some ⟨7⟩)) := by
  constructor
  · rfl
  · intro h
    rw [show cmdAddLock (cmdAddLock [] (some ⟨3⟩)) (some ⟨7⟩) = [⟨7⟩, ⟨3⟩] from rfl] at h
    have := (List.sorted_cons.mp h).1 ⟨3⟩ (List.mem_cons_self _ _)
    simp [uniqueIdLT] at this

/-- The worked example in the function's own comment block: inserting a thing
with unique ID 4 into the Locks slice `[3, 7, 9]` is documented to give
`[3, 4, 7, 9]`, but the code produces `[4, 3, 7, 9]`. -/
theorem command_addLock_contradicts_own_doc :
    cmdAddLock [⟨3⟩, ⟨7⟩, ⟨9⟩] (some ⟨4⟩) = [⟨4⟩, ⟨3⟩, ⟨7⟩, ⟨9⟩] ∧
      cmdAddLock [⟨3⟩, ⟨7⟩, ⟨9⟩] (some ⟨4⟩) ≠ [⟨3⟩, ⟨4⟩, ⟨7⟩, ⟨9⟩] := by
  exact ⟨rfl, by decide⟩

/-! ## state.parse / state.sync (cmd/state.go)

The `state` struct, restricted to the fields parse/sync/NewState touch.
Message buffers are not modelled; the dispatcher is an arbitrary state
transformer, as in `func (s *state) parse(dispatcher func(s *state))`. -/

structure ParseState where
  cmd : String
  words : List String
  input : List String
  ok : Bool
  locks : List Inventory
deriving DecidableEq, Repr

/-- `state.parse` from cmd/state.go, as the trace of states at which the
dispatcher is invoked (one invocation per `sync` call):

    for l := -1; l != 0; { l = len(s.locks); s.sync(dispatcher); l -= len(s.locks) }

The loop repeats while the lock-list length changed across the `sync` call.
`fuel` bounds the iteration count; `none` means the loop was still running
when fuel ran out. -/
def parseCalls (d : ParseState → ParseState) : Nat → ParseState → Option (List ParseState)
  | 0, _ => none
  | fuel + 1, s =>
    if (d s).locks.length = s.locks.length then some [s]
    else
      match parseCalls d fuel (d s) with
      | some tr => some (s :: tr)
      | none => none

theorem parseCalls_head (d : ParseState → ParseState) (fuel : Nat) (s : ParseState)
    (tr : List ParseState) (h : parseCalls d fuel s = some tr) :
    ∃ tr2, tr = s :: tr2 := by
  cases fuel with
  | zero => simp [parseCalls] at h
  | succ m =>
    rw [parseCalls] at h
    split at h
    · exact ⟨[], by simpa using h.symm⟩
    · revert h
      cases parseCalls d m (d s) with
      | none => intro h; simp at h
      | some tr3 => intro h; exact ⟨tr3, by simpa using h.symm⟩

/-- **C3.** `state.parse` invokes the dispatcher exactly once when the
invocation leaves the lock-list length unchanged; when the first invocation
grows the list, parse runs the dispatcher again on the grown state, so the
trace has length at least two and its second entry is the grown state; and
whenever the loop terminates, its last dispatcher invocation is one that
leaves the lock-list length unchanged. -/
theorem state_parse_invocations (d : ParseState → ParseState) (s : ParseState) (fuel : Nat) :
    (1 ≤ fuel → (d s).locks.length = s.locks.length → parseCalls d fuel s = some [s]) ∧
      (∀ tr, parseCalls d fuel s = some tr → (d s).locks.length ≠ s.locks.length →
        2 ≤ tr.length ∧ tr.get? 1 = some (d s)) ∧
      (∀ tr, parseCalls d fuel s = some tr →
        ∃ pre sl, tr = pre ++ [sl] ∧ (d sl).locks.length = sl.locks.length) := by
  refine ⟨?_, ?_, ?_⟩
  · intro hf h
    cases fuel with
    | zero => omega
    | succ m => simp [parseCalls, h]
  · intro tr htr hne
    cases fuel with
    | zero => simp [parseCalls] at htr
    | succ m =>
      rw [parseCalls, if_neg hne] at htr
      cases hrec : parseCalls d m (d s) with
      | none => rw [hrec] at htr; simp at htr
      | some tr2 =>
        rw [hrec] at htr
        obtain ⟨tr3, rfl⟩ := parseCalls_head d m (d s) tr2 hrec
        simp at htr
        subst htr
        simp
  · intro tr htr
    induction fuel generalizing s tr with
    | zero => simp [parseCalls] at htr
    | succ m ih =>
      rw [parseCalls] at htr
      split at htr
      · refine ⟨[], s, by simpa using htr.symm, by assumption⟩
      · revert htr
        cases hrec : parseCalls d m (d s) with
        | none => intro htr; simp at htr
        | some tr2 =>
          intro htr
          simp at htr
          obtain ⟨pre, sl, rfl, hlast⟩ := ih (d s) tr2 hrec
          exact ⟨s :: pre, sl, by simp [← htr], hlast⟩

/-- Concrete instance of C3: a dispatcher that adds no lock is invoked exactly
once. -/
theorem state_parse_invocations_witness :
    parseCalls (fun s => s) 1 ⟨"", [], [], false, []⟩ = some [⟨"", [], [], false, []⟩] :=
  (state_parse_invocations (fun s => s) ⟨"", [], [], false, []⟩ 1).1 (by decide) rfl

/-! ## state.sync locking (cmd/state.go)

    func (s *state) sync(dispatcher func(s *state)) {
        for _, l := range s.locks { l.Lock(); defer l.Unlock() }
        dispatcher(s)
    }

Modelled as the trace of Lock/Unlock calls one `sync` invocation performs.
The range loop emits a Lock event per handle, in list order, and pushes the
matching deferred Unlock onto the defer stack; the deferred calls run in LIFO
order when `sync` returns, whatever the dispatcher did (Go runs deferred
calls on normal return, early return and panic alike). The dispatcher's
outcome is an arbitrary Boolean (e.g. no-match/veto vs success); commands
never call Lock or Unlock themselves. -/

inductive LockEvent where
  | lockEv (i : Inventory)
  | unlockEv (i : Inventory)
deriving DecidableEq, Repr

/-- The range loop of `sync`: accumulates the emitted Lock events and the
defer stack (most recently deferred first). -/
def syncLockPhase (locks : List Inventory) : List LockEvent × List Inventory :=
  locks.foldl (fun p l => (p.1 ++ [LockEvent.lockEv l], l :: p.2)) ([], [])

/-- The full Lock/Unlock trace of one `sync` call: the Lock events of the
range loop, then (after the dispatcher returns with whatever outcome) the
deferred Unlock calls popped LIFO. -/
def syncEvents (locks : List Inventory) (dispatcherOutcome : Bool) : List LockEvent :=
  (syncLockPhase locks).1 ++ ((syncLockPhase locks).2.map LockEvent.unlockEv)

/-- Interpreter for a Lock/Unlock trace: the multiset of currently held
handles, as a list; Unlock releases one matching hold. -/
def runHeld : List LockEvent → List Inventory → List Inventory
  | [], held => held
  | LockEvent.lockEv i :: es, held => runHeld es (held ++ [i])
  | LockEvent.unlockEv i :: es, held => runHeld es (held.erase i)

theorem syncLockPhase_go (locks : List Inventory) (es : List LockEvent)
    (stk : List Inventory) :
    locks.foldl (fun p l => (p.1 ++ [LockEvent.lockEv l], l :: p.2)) (es, stk) =
      (es ++ locks.map LockEvent.lockEv, locks.reverse ++ stk) := by
  induction locks generalizing es stk with
  | nil => simp
  | cons a t ih => simp [List.foldl_cons, ih]

theorem syncEvents_eq (locks : List Inventory) (o : Bool) :
    syncEvents locks o =
      locks.map LockEvent.lockEv ++ (locks.reverse.map LockEvent.unlockEv) := by
  simp [syncEvents, syncLockPhase, syncLockPhase_go]

theorem runHeld_append (es1 es2 : List LockEvent) (held : List Inventory) :
    runHeld (es1 ++ es2) held = runHeld es2 (runHeld es1 held) := by
  induction es1 generalizing held with
  | nil => rfl
  | cons e t ih => cases e <;> simp [runHeld, ih]

theorem runHeld_locks (xs : List Inventory) (held : List Inventory) :
    runHeld (xs.map LockEvent.lockEv) held = held ++ xs := by
  induction xs generalizing held with
  | nil => simp [runHeld]
  | cons a t ih => simp [runHeld, ih]

theorem runHeld_unlocks (ys : List Inventory) (hnd : ys.Nodup) :
    runHeld (ys.map LockEvent.unlockEv) ys.reverse = [] := by
  induction ys with
  | nil => rfl
  | cons y t ih =>
    have hy : y ∉ t.reverse := by
      simpa using (List.nodup_cons.mp hnd).1
    simp only [List.map_cons, runHeld, List.reverse_cons]
    rw [List.erase_append_right _ hy, List.erase_cons_head, List.append_nil]
    exact ih (List.nodup_cons.mp hnd).2

theorem count_lockEv_map_lock (xs : List Inventory) (i : Inventory) :
    (xs.map LockEvent.lockEv).count (LockEvent.lockEv i) = xs.count i := by
  induction xs with
  | nil => rfl
  | cons a t ih =>
    by_cases h : a = i <;>
      simp [List.count_cons, h, ih]

theorem count_unlockEv_map_lock (xs : List Inventory) (i : Inventory) :
    (xs.map LockEvent.lockEv).count (LockEvent.unlockEv i) = 0 := by
  induction xs with
  | nil => rfl
  | cons a t ih => simp [List.count_cons, ih]

theorem count_unlockEv_map_unlock (xs : List Inventory) (i : Inventory) :
    (xs.map LockEvent.unlockEv).count (LockEvent.unlockEv i) = xs.count i := by
  induction xs with
  | nil => rfl
  | cons a t ih =>
    by_cases h : a = i <;>
      simp [List.count_cons, h, ih]

theorem count_lockEv_map_unlock (xs : List Inventory) (i : Inventory) :
    (xs.map LockEvent.unlockEv).count (LockEvent.lockEv i) = 0 := by
  induction xs with
  | nil => rfl
  | cons a t ih => simp [List.count_cons, ih]

/-- Projection of the handles locked (resp. unlocked) by a trace, in order. -/
def lockSeq (es : List LockEvent) : List Inventory :=
  es.filterMap fun e => match e with | LockEvent.lockEv i => some i | _ => none

def unlockSeq (es : List LockEvent) : List Inventory :=
  es.filterMap fun e => match e with | LockEvent.unlockEv i => some i | _ => none

theorem lockSeq_locks_unlocks (xs ys : List Inventory) :
    lockSeq (xs.map LockEvent.lockEv ++ ys.map LockEvent.unlockEv) = xs := by
  induction xs with
  | nil =>
    induction ys with
    | nil => rfl
    | cons b u ihy => simpa [lockSeq] using ihy
  | cons a t ih => simpa [lockSeq] using ih

theorem unlockSeq_locks_unlocks (xs ys : List Inventory) :
    unlockSeq (xs.map LockEvent.lockEv ++ ys.map LockEvent.unlockEv) = ys := by
  induction xs with
  | nil =>
    induction ys with
    | nil => rfl
    | cons b u ihy => simpa [unlockSeq] using ihy
  | cons a t ih => simpa [unlockSeq] using ih

/-- **C4.** Every `state.sync` call locks exactly the handles of the current
lock list in list order, unlocks them in reverse order of acquisition
whatever the dispatcher's outcome (early no-match/veto return included), the
Lock and Unlock calls on every handle are balanced, and no handle remains
held when `sync` returns. -/
theorem state_sync_release_balanced (locks : List Inventory) (dispatcherOutcome : Bool) :
    lockSeq (syncEvents locks dispatcherOutcome) = locks ∧
      unlockSeq (syncEvents locks dispatcherOutcome) = locks.reverse ∧
      (∀ i, (syncEvents locks dispatcherOutcome).count (LockEvent.lockEv i) =
        (syncEvents locks dispatcherOutcome).count (LockEvent.unlockEv i)) ∧
      (locks.Nodup → runHeld (syncEvents locks dispatcherOutcome) [] = []) := by
  rw [syncEvents_eq]
  refine ⟨?_, ?_, ?_, ?_⟩
  · exact lockSeq_locks_unlocks locks locks.reverse
  · exact unlockSeq_locks_unlocks locks locks.reverse
  · intro i
    simp [List.count_append, count_lockEv_map_lock, count_unlockEv_map_lock,
      count_unlockEv_map_unlock, count_lockEv_map_unlock, List.count_reverse]
  · intro hnd
    rw [runHeld_append, runHeld_locks]
    simpa using runHeld_unlocks locks.reverse (by simpa using hnd)

/-- Concrete instance of C4: two held locks are released in reverse order and
nothing stays held. -/
theorem state_sync_release_balanced_witness :
    runHeld (syncEvents [⟨0, 1⟩, ⟨1, 2⟩] false) [] = [] :=
  (state_sync_release_balanced [⟨0, 1⟩, ⟨1, 2⟩] false).2.2.2 (by decide)

/-! ## Action attribute (attr/action.go)

`Action` holds after/jitter durations, the due time of the last queued event
and the `event.Cancel` channel of the pending event (nil when none pending).
Durations and times are Nat nanosecond counts; a Cancel channel is an opaque
token identified by a Nat.

The `event` package is not part of the sources, so the scheduler side is
modelled from the spec: `EvState` records which cancellation tokens have been
issued (`tok < nextTok`) and which have been closed; a queued event can fire
only while its token is issued and not closed. -/

structure EvState where
  closed : List Nat
  nextTok : Nat
deriving DecidableEq, Repr

structure ActionAttr where
  after : Nat
  jitter : Nat
  due : Nat
  cancel : Option Nat
deriving DecidableEq, Repr

/-- `NewAction` from attr/action.go: zero due time, nil Cancel channel. -/
def newAction (after jitter : Nat) : ActionAttr :=
  { after := after, jitter := jitter, due := 0, cancel := none }

/-- Modelled from the spec: `event.Queue` (package event, not under src)
installs a timer due at now + delay + uniform-random jitter draw `r` and
returns a fresh cancellation token together with the computed due time. -/
def eventQueue (w : EvState) (now delay r : Nat) : EvState × Nat × Nat :=
  ({ closed := w.closed, nextTok := w.nextTok + 1 }, w.nextTok, now + delay + r)

/-- `Action.Abort` from attr/action.go: if a Cancel channel is held, close it
and nil the field. -/
def actionAbort (w : EvState) (a : ActionAttr) : EvState × ActionAttr :=
  match a.cancel with
  | some t => ({ closed := t :: w.closed, nextTok := w.nextTok }, { a with cancel := none })
  | none => (w, a)

/-- `Action.Action` from attr/action.go: always Abort first, then, when the
parent has an OnAction attribute, queue a new `$ACTION` event and store its
Cancel channel and due time. -/
def actionAction (w : EvState) (a : ActionAttr) (hasOnAction : Bool)
    (now r : Nat) : EvState × ActionAttr :=
  let p := actionAbort w a
  if hasOnAction then
    let q := eventQueue p.1 now p.2.after r
    (q.1, { p.2 with cancel := some q.2.1, due := q.2.2 })
  else p

/-- `Action.Pending` from attr/action.go. -/
def actionPending (a : ActionAttr) : Bool :=
  a.cancel.isSome

/-- The operations a Thing's behaviour can apply to its Action attribute. -/
inductive AOp where
  | act (hasOnAction : Bool) (now r : Nat)
  | abortOp
deriving DecidableEq, Repr

def runAOps (ops : List AOp) (st : EvState × ActionAttr) : EvState × ActionAttr :=
  ops.foldl
    (fun st op =>
      match op with
      | AOp.act h now r => actionAction st.1 st.2 h now r
      | AOp.abortOp => actionAbort st.1 st.2)
    st

def initAction (after jitter : Nat) : EvState × ActionAttr :=
  ({ closed := [], nextTok := 0 }, newAction after jitter)

/-- Every issued token other than the attribute's current Cancel channel has
been closed: at most one event of this Action is pending/fireable. -/
def atMostOnePending (st : EvState × ActionAttr) : Prop :=
  ∀ t, t < st.1.nextTok → st.2.cancel = some t ∨ t ∈ st.1.closed

theorem actionAbort_cancel_eq_none (w : EvState) (a : ActionAttr) :
    (actionAbort w a).2.cancel = none := by
  cases hc : a.cancel <;> simp [actionAbort, hc]

theorem atMostOnePending_actionAbort (w : EvState) (a : ActionAttr)
    (h : atMostOnePending (w, a)) : atMostOnePending (actionAbort w a) := by
  intro t ht
  cases hc : a.cancel with
  | none =>
    have ht2 : t < w.nextTok := by simpa [actionAbort, hc] using ht
    rcases h t ht2 with hl | hr
    · rw [hc] at hl; cases hl
    · right; simpa [actionAbort, hc] using hr
  | some t0 =>
    have ht2 : t < w.nextTok := by simpa [actionAbort, hc] using ht
    right
    rcases h t ht2 with hl | hr
    · rw [hc] at hl
      simp only [actionAbort, hc]
      rw [Option.some_inj.mp hl]
      exact List.mem_cons_self t w.closed
    · simp only [actionAbort, hc]
      exact List.mem_cons_of_mem t0 hr

theorem atMostOnePending_actionAction (w : EvState) (a : ActionAttr)
    (b : Bool) (now r : Nat) (h : atMostOnePending (w, a)) :
    atMostOnePending (actionAction w a b now r) := by
  have hab := atMostOnePending_actionAbort w a h
  cases b with
  | false => simpa [actionAction] using hab
  | true =>
    intro t ht
    simp only [actionAction, if_pos rfl, eventQueue] at ht ⊢
    rcases Nat.lt_succ_iff_lt_or_eq.mp ht with hlt | rfl
    · rcases hab t hlt with hl | hr
      · rw [actionAbort_cancel_eq_none] at hl; cases hl
      · right; exact hr
    · left; rfl

theorem atMostOnePending_runAOps (ops : List AOp) (st : EvState × ActionAttr)
    (h : atMostOnePending st) : atMostOnePending (runAOps ops st) := by
  induction ops generalizing st with
  | nil => exact h
  | cons op rest ih =>
    cases op with
    | act b now r =>
      exact ih (actionAction st.1 st.2 b now r) (atMostOnePending_actionAction st.1 st.2 b now r h)
    | abortOp =>
      exact ih (actionAbort st.1 st.2) (atMostOnePending_actionAbort st.1 st.2 h)

/-- **C5.** `Action.Action` on a non-nil Action first aborts any pending event
(the previously stored token is closed and is no longer the stored one)
before queueing a new event; consequently, along every sequence of
Action/Abort operations from a fresh attribute, every issued token except the
currently stored one is closed, so the attribute has at most one pending
scheduled event at any time and at most one fire per scheduling can ever be
observed. -/
theorem action_cancel_then_reschedule :
    (∀ (w : EvState) (a : ActionAttr) (b : Bool) (now r t : Nat),
      a.cancel = some t → t < w.nextTok →
        t ∈ (actionAction w a b now r).1.closed ∧
          (actionAction w a b now r).2.cancel ≠ some t) ∧
      ∀ (after jitter : Nat) (ops : List AOp),
        atMostOnePending (runAOps ops (initAction after jitter)) := by
  constructor
  · intro w a b now r t hc hlt
    cases b with
    | false =>
      refine ⟨?_, ?_⟩
      · simp [actionAction, actionAbort, hc]
      · rw [show (actionAction w a false now r).2.cancel = none by
          simpa [actionAction] using actionAbort_cancel_eq_none w a]
        simp
    | true =>
      refine ⟨?_, ?_⟩
      · simp [actionAction, eventQueue, actionAbort, hc]
      · simp only [actionAction, if_pos rfl, eventQueue, actionAbort, hc]
        intro heq
        have hne : w.nextTok = t := by simpa using heq
        omega
  · intro after jitter ops
    refine atMostOnePending_runAOps ops (initAction after jitter) ?_
    intro t ht
    simp [initAction] at ht

/-- Concrete instance of C5: scheduling over a pending event closes the old
token 4 and stores a different fresh one. -/
theorem action_cancel_then_reschedule_witness :
    4 ∈ (actionAction ⟨[], 9⟩ ⟨10, 2, 0, some 4⟩ true 0 1).1.closed ∧
      (actionAction ⟨[], 9⟩ ⟨10, 2, 0, some 4⟩ true 0 1).2.cancel ≠ some 4 :=
  action_cancel_then_reschedule.1 ⟨[], 9⟩ ⟨10, 2, 0, some 4⟩ true 0 1 4 rfl (by decide)

/-- `Action.Copy` from attr/action.go: `na := NewAction(a.after, a.jitter);
na.due = a.due; return na`. -/
def actionCopy (a : ActionAttr) : ActionAttr :=
  { newAction a.after a.jitter with due := a.due }

/-- **C9.** `Action.Copy` on a non-nil Action preserves the after, jitter and
due values, while the copy's Cancel channel is nil, so the copy reports no
pending event even when the original has one in flight; and Copy performs no
close or queue, leaving the scheduler state and the original attribute
untouched. -/
theorem action_copy_detaches_pending :
    ∀ a : ActionAttr,
      (actionCopy a).after = a.after ∧ (actionCopy a).jitter = a.jitter ∧
        (actionCopy a).due = a.due ∧ (actionCopy a).cancel = none ∧
        actionPending (actionCopy a) = false ∧
        (actionPending a = true → actionPending (actionCopy a) = false) := by
  intro a
  refine ⟨rfl, rfl, rfl, rfl, rfl, fun _ => rfl⟩

/-! ## Combat round attacker/defender flip (core Combat, utils/command part)

    attacker, defender := s.actor, what
    if rand.Int63n(100+1) < 50 { attacker, defender = defender, attacker }

`rand.Int63n(100+1)` is uniform on the 101 values 0..100; the roles swap for
the draws strictly below 50. -/

/-- The swap decision of a Combat round for a draw `r` of `rand.Int63n(100+1)`. -/
def combatSwap (r : Nat) : Bool :=
  decide (r < 50)

/-- The attacker/defender pair a Combat round uses, given the initiating
actor, its opponent, and the draw. -/
def combatRoles (actor opponent : Nat) (r : Nat) : Nat × Nat :=
  if combatSwap r then (opponent, actor) else (actor, opponent)

/-- The sample space of `rand.Int63n(100+1)`. -/
def combatSwapSpace : Finset Nat := Finset.range (100 + 1)

/-- Probability that the roles are swapped, under a uniform draw. -/
def combatSwapProb : ℚ :=
  (combatSwapSpace.filter fun r => combatSwap r = true).card / combatSwapSpace.card

theorem combatSwap_filter_card :
    (combatSwapSpace.filter fun r => combatSwap r = true).card = 50 := by
  decide

/-- **C6 counterexample.** Under a uniform draw the swap probability is not
exactly 1/2: only 50 of the 101 equally likely values 0..100 of
`rand.Int63n(100+1)` are below 50. -/
theorem combat_swap_not_half : combatSwapProb ≠ 1 / 2 := by
  rw [combatSwapProb, combatSwap_filter_card]
  rw [show combatSwapSpace.card = 101 by decide]
  norm_num

/-- **C6 (amended).** In each fired Combat event the attacker and defender
roles are swapped with probability exactly 50/101 under a uniform random
source, independent of which side initiated: for any initiating pair the
draws that swap the roles are exactly the 50 values below 50. -/
theorem combat_swap_prob_50_101 :
    combatSwapProb = 50 / 101 ∧
      ∀ actor opponent : Nat, actor ≠ opponent →
        (combatSwapSpace.filter fun r => combatRoles actor opponent r = (opponent, actor)).card
          = 50 := by
  constructor
  · rw [combatSwapProb, combatSwap_filter_card]
    rw [show combatSwapSpace.card = 101 by decide]
    norm_num
  · intro actor opponent hne
    have hset : (combatSwapSpace.filter fun r => combatRoles actor opponent r = (opponent, actor))
        = combatSwapSpace.filter fun r => combatSwap r = true := by
      apply Finset.filter_congr
      intro r _
      by_cases hsw : combatSwap r = true
      · simp [combatRoles, hsw]
      · simp [combatRoles, hsw, Prod.ext_iff, hne]
    rw [hset, combatSwap_filter_card]

/-- Concrete instance of the C6 amendment for a specific fighting pair. -/
theorem combat_swap_prob_witness :
    (combatSwapSpace.filter fun r => combatRoles 3 7 r = (7, 3)).card = 50 :=
  combat_swap_prob_50_101.2 3 7 (by decide)

/-! ## NewState (cmd/state.go) -/

/-- `strings.Fields`: split around runs of whitespace, dropping empty
substrings. `cur` is the reversed current word being accumulated. -/
def goFieldsAux (cur : List Char) : List Char → List String
  | [] => if cur = [] then [] else [String.mk cur.reverse]
  | c :: cs =>
    if c.isWhitespace then
      if cur = [] then goFieldsAux [] cs else String.mk cur.reverse :: goFieldsAux [] cs
    else goFieldsAux (c :: cur) cs

def goFields (s : String) : List String :=
  goFieldsAux [] s.data

/-- `strings.ToUpper`, restricted to the character-wise mapping. -/
def goToUpper (s : String) : String :=
  String.mk (s.data.map Char.toUpper)

/-- `NewState` from cmd/state.go: split the input into fields, uppercase them
into `words`, then

    switch l := len(s.words); {
    case l > 1: s.cmd, s.words = s.words[0], s.words[1:]; s.input = s.input[1:]
    case l > 0: s.cmd = s.words[0]
    }

and add the actor's containing Inventory (if locatable) to the lock list.
The containing Inventory is the `whereLock` parameter (`none` when the actor
is not locatable). -/
def newState (whereLock : Option Inventory) (input : String) : ParseState :=
  let inp := goFields input
  let ws := inp.map goToUpper
  let s0 : ParseState :=
    { cmd := "", words := ws, input := inp, ok := false, locks := AddLock [] whereLock }
  if 1 < ws.length then
    { s0 with cmd := ws.headD "", words := ws.tail, input := inp.tail }
  else if 0 < ws.length then
    { s0 with cmd := ws.headD "" }
  else s0

/-- **C8.** For input of exactly one word, `NewState` uppercases it into
`cmd` but leaves both `words` and `input` still holding that single word;
only for two or more words is the leading verb removed from `words` and
`input`. -/
theorem newState_single_word_keeps_slices (wl : Option Inventory) (inp : String) :
    (∀ w, goFields inp = [w] →
      (newState wl inp).cmd = goToUpper w ∧
        (newState wl inp).words = [goToUpper w] ∧ (newState wl inp).input = [w]) ∧
      ∀ w u rest, goFields inp = w :: u :: rest →
        (newState wl inp).cmd = goToUpper w ∧
          (newState wl inp).words = (u :: rest).map goToUpper ∧
          (newState wl inp).input = u :: rest := by
  constructor
  · intro w hw
    simp [newState, hw]
  · intro w u rest hw
    simp [newState, hw]

/-- Concrete instance of C8: the single word "look" is kept in both slices,
while the verb of "look north" is removed from them. -/
theorem newState_single_word_witness :
    ((newState none "look").cmd = "LOOK" ∧
      (newState none "look").words = ["LOOK"] ∧ (newState none "look").input = ["look"]) ∧
      (newState none "look north").words = ["NORTH"] ∧
      (newState none "look north").input = ["north"] := by
  have h1 := (newState_single_word_keeps_slices none "look").1 "look" (by decide)
  have h2 := (newState_single_word_keeps_slices none "look north").2 "look" "north" [] (by decide)
  refine ⟨⟨?_, ?_, h1.2.2⟩, ?_, h2.2.2⟩
  · rw [h1.1]; decide
  · rw [h1.2.1]; decide
  · rw [h2.2.1]; decide

/-! ## Command message buffering (utils/command/command.go)

`responseBuffer` stores the format strings and the variadic arguments of the
buffered `Respond` calls; `broadcastBuffer` adds the omit list. The issuer's
dynamic type may or may not implement `messaging.Responder` /
`messaging.Broadcaster`; both `Respond`/`Broadcast` and `Flush` test this
with a type assertion. Variadic arguments are modelled as opaque `Nat`
payloads, omitted things by their unique IDs. -/

structure RespBuffer where
  format : List String
  args : List Nat
deriving DecidableEq, Repr

structure BcastBuffer where
  rb : RespBuffer
  omits : List Nat
deriving DecidableEq, Repr

structure GoCommand where
  issuerResponder : Bool
  issuerBroadcaster : Bool
  response : RespBuffer
  broadcast : BcastBuffer
deriving DecidableEq, Repr

/-- `command.New`: a fresh Command has empty buffers. -/
def newCommand (r b : Bool) : GoCommand :=
  { issuerResponder := r, issuerBroadcaster := b,
    response := ⟨[], []⟩, broadcast := ⟨⟨[], []⟩, []⟩ }

/-- `Command.Respond`: buffer the message only when the issuer implements
`messaging.Responder`. -/
def cmdRespond (c : GoCommand) (format : String) (args : List Nat) : GoCommand :=
  if c.issuerResponder then
    { c with response := ⟨c.response.format ++ [format], c.response.args ++ args⟩ }
  else c

/-- The omit-merge loop of `Command.Broadcast`: append each new omitted thing
unless one with the same identity (`IsAlso`) is already present. -/
def addOmits (cur : List Nat) (new : List Nat) : List Nat :=
  new.foldl (fun acc o => if acc.any fun o2 => o = o2 then acc else acc ++ [o]) cur

/-- `Command.Broadcast`: buffer the message and merge the omit list only when
the issuer implements `messaging.Broadcaster`. -/
def cmdBroadcast (c : GoCommand) (om : List Nat) (format : String) (args : List Nat) :
    GoCommand :=
  if c.issuerBroadcaster then
    { c with broadcast :=
      ⟨⟨c.broadcast.rb.format ++ [format], c.broadcast.rb.args ++ args⟩,
        addOmits c.broadcast.omits om⟩ }
  else c

/-- A message delivered by `Flush`: either a joined `Respond` to the issuer
or a joined `Broadcast` with its omit list. -/
inductive Delivery where
  | respondMsg (format : List String) (args : List Nat)
  | broadcastMsg (omits : List Nat) (format : List String) (args : List Nat)
deriving DecidableEq, Repr

/-- `Command.Flush`: when the response buffer is non-empty, deliver it if the
issuer is a Responder and reset it either way; then the same for the
broadcast buffer. -/
def cmdFlush (c : GoCommand) : GoCommand × List Delivery :=
  let p1 : GoCommand × List Delivery :=
    if 0 < c.response.format.length then
      ({ c with response := ⟨[], []⟩ },
        if c.issuerResponder then [Delivery.respondMsg c.response.format c.response.args]
        else [])
    else (c, [])
  let p2 : GoCommand × List Delivery :=
    if 0 < p1.1.broadcast.rb.format.length then
      ({ p1.1 with broadcast := ⟨⟨[], []⟩, []⟩ },
        if p1.1.issuerBroadcaster then
          [Delivery.broadcastMsg p1.1.broadcast.omits p1.1.broadcast.rb.format
            p1.1.broadcast.rb.args]
        else [])
    else (p1.1, [])
  (p2.1, p1.2 ++ p2.2)

/-- The operations a command processor applies to a Command's buffers. -/
inductive COp where
  | resp (format : String) (args : List Nat)
  | bcast (om : List Nat) (format : String) (args : List Nat)
  | flushOp
deriving DecidableEq, Repr

def applyCOp (c : GoCommand) : COp → GoCommand
  | COp.resp f a => cmdRespond c f a
  | COp.bcast o f a => cmdBroadcast c o f a
  | COp.flushOp => (cmdFlush c).1

/-- Buffer coherence: a buffer with no formats holds no stray arguments or
omitted things. Holds for every Command reachable through the API. -/
def buffersCoherent (c : GoCommand) : Prop :=
  (c.response.format = [] → c.response.args = []) ∧
    (c.broadcast.rb.format = [] → c.broadcast.rb.args = [] ∧ c.broadcast.omits = [])

theorem buffersCoherent_applyCOp (c : GoCommand) (op : COp)
    (h : buffersCoherent c) : buffersCoherent (applyCOp c op) := by
  cases op with
  | resp f a =>
    by_cases hr : c.issuerResponder <;>
      simp_all [applyCOp, cmdRespond, buffersCoherent]
  | bcast o f a =>
    by_cases hb : c.issuerBroadcaster <;>
      simp_all [applyCOp, cmdBroadcast, buffersCoherent]
  | flushOp =>
    by_cases h1 : 0 < c.response.format.length <;>
      by_cases h2 : 0 < c.broadcast.rb.format.length <;>
        simp_all [applyCOp, cmdFlush, buffersCoherent]

theorem buffersCoherent_reachable (r b : Bool) (ops : List COp) :
    buffersCoherent (ops.foldl applyCOp (newCommand r b)) := by
  have hgo : ∀ (ops2 : List COp) (c : GoCommand),
      buffersCoherent c → buffersCoherent (ops2.foldl applyCOp c) := by
    intro ops2
    induction ops2 with
    | nil => exact fun c h => h
    | cons op rest ih => exact fun c h => ih _ (buffersCoherent_applyCOp c op h)
  exact hgo ops (newCommand r b) (by simp [newCommand, buffersCoherent])

theorem cmdFlush_response_empty (c : GoCommand) (hc : buffersCoherent c) :
    (cmdFlush c).1.response = ⟨[], []⟩ := by
  rcases c with ⟨ir, ib, ⟨rf, ra⟩, ⟨⟨bf, ba⟩, bo⟩⟩
  rcases hc with ⟨hc1, hc2⟩
  cases rf with
  | nil =>
    have hra : ra = [] := hc1 rfl
    subst hra
    by_cases h2 : 0 < bf.length <;> simp [cmdFlush, h2]
  | cons f fs =>
    by_cases h2 : 0 < bf.length <;> simp [cmdFlush, h2]

theorem cmdFlush_broadcast_empty (c : GoCommand) (hc : buffersCoherent c) :
    (cmdFlush c).1.broadcast = ⟨⟨[], []⟩, []⟩ := by
  rcases c with ⟨ir, ib, ⟨rf, ra⟩, ⟨⟨bf, ba⟩, bo⟩⟩
  rcases hc with ⟨hc1, hc2⟩
  cases bf with
  | nil =>
    have hb : ba = [] ∧ bo = [] := hc2 rfl
    rcases hb with ⟨rfl, rfl⟩
    by_cases h1 : 0 < rf.length <;> simp [cmdFlush, h1]
  | cons f fs =>
    by_cases h1 : 0 < rf.length <;> simp [cmdFlush, h1]

theorem cmdFlush_nothing_buffered (c : GoCommand) (h1 : c.response.format = [])
    (h2 : c.broadcast.rb.format = []) : (cmdFlush c).2 = [] := by
  simp [cmdFlush, h1, h2]

/-- **C10.** After `Command.Flush` returns, both the response buffer and the
broadcast buffer of any API-reachable Command are empty — also when the
issuer implements neither `messaging.Responder` nor `messaging.Broadcaster` —
and a second `Flush` right after delivers nothing, so Flush-then-Flush
delivers exactly what a single Flush does. -/
theorem command_flush_empties_buffers (r b : Bool) (ops : List COp) :
    ((cmdFlush (ops.foldl applyCOp (newCommand r b))).1.response = ⟨[], []⟩) ∧
      ((cmdFlush (ops.foldl applyCOp (newCommand r b))).1.broadcast = ⟨⟨[], []⟩, []⟩) ∧
      (cmdFlush (cmdFlush (ops.foldl applyCOp (newCommand r b))).1).2 = [] := by
  have hc := buffersCoherent_reachable r b ops
  refine ⟨cmdFlush_response_empty _ hc, cmdFlush_broadcast_empty _ hc, ?_⟩
  refine cmdFlush_nothing_buffered _ ?_ ?_
  · rw [cmdFlush_response_empty _ hc]
  · rw [cmdFlush_broadcast_empty _ hc]

/-! ## Hit / createCorpse (core combat commands, utils/command part 2)

Things (`*Thing`) carry the attributes the Hit path touches: identity
(`As[UID]`), the Player flag, health ints, the descriptive strings, alias and
qualifier lists, cleanup data for corpses, and the set of scheduled events
(`Event[...]`/`Schedule`). Locations are Things holding `Who`/`In` maps and a
`VetoCombat` string; Go maps are modelled as association lists with unique
keys. `Match` (noun resolution) is external to the hit logic: the resolved
target UID is a parameter, `none` standing for empty input words. The random
damage roll `2 + rand.Int63n(2+1)` and the random start index
`rand.Intn(len(WorldStart))` are likewise parameters. -/

inductive CEvent where
  | cleanup | health | actionEv | combatEv
deriving DecidableEq, Repr

structure CThing where
  uid : String
  isPlayer : Bool
  healthCurrent : Int
  healthMaximum : Int
  name : String
  uName : String
  theName : String
  uTheName : String
  description : String
  aliases : List String
  qualifiers : List String
  cleanupAfter : Int
  onCleanup : String
  scheduled : List CEvent
deriving DecidableEq, Repr

abbrev ThingMap := List (String × CThing)

/-- Go map read `m[k]` (nil for a missing key). -/
def mapGet : ThingMap → String → Option CThing
  | [], _ => none
  | p :: ps, k => if p.1 = k then some p.2 else mapGet ps k

/-- Go map write `m[k] = v`. -/
def mapSet : ThingMap → String → CThing → ThingMap
  | [], k, v => [(k, v)]
  | p :: ps, k, v => if p.1 = k then (k, v) :: ps else p :: mapSet ps k v

/-- Go map `delete(m, k)`. -/
def mapDel : ThingMap → String → ThingMap
  | [], _ => []
  | p :: ps, k => if p.1 = k then mapDel ps k else p :: mapDel ps k

structure CLoc where
  who : ThingMap
  contents : ThingMap
  vetoCombat : String
deriving DecidableEq, Repr

/-- `NewThing`: a fresh Thing whose new UID is also its first alias. -/
def newThing (fresh : String) : CThing :=
  { uid := fresh, isPlayer := false, healthCurrent := 0, healthMaximum := 0,
    name := "", uName := "", theName := "", uTheName := "", description := "",
    aliases := [fresh], qualifiers := [], cleanupAfter := 0, onCleanup := "",
    scheduled := [] }

/-- `createCorpse` from the core combat file. Returns the corpse and the
updated location: the Go code writes the original Thing `t` into
`c.Ref[Where].In` under the corpse's UID (both call sites immediately
overwrite that entry with the corpse itself). Times are in seconds. -/
def createCorpse (fresh : String) (t : CThing) (wh : CLoc) : CThing × CLoc :=
  let c0 := newThing fresh
  let c1 := { c0 with
    name := "a corpse of " ++ t.name,
    uName := "A corpse of " ++ t.name,
    theName := "the corpse of " ++ t.name,
    uTheName := "The corpse of " ++ t.name,
    description := t.description,
    aliases := c0.aliases ++ t.aliases,
    qualifiers := c0.qualifiers ++ t.qualifiers,
    cleanupAfter := 60,
    onCleanup := "The corpse of " ++ t.name ++ " turns to dust." }
  let wh1 := { wh with contents := mapSet wh.contents fresh t }
  let c2 := { c1 with
    aliases := c1.aliases.map fun al => if al = t.uid then "CORPSE" else al }
  (c2, wh1)

/-- Modelled from the spec: `Thing.Junk` is not under src; a junked non-player
defender is "permanently removed" from the world, here from its location's
maps. -/
def junkThing (l : CLoc) (uid : String) : CLoc :=
  { l with who := mapDel l.who uid, contents := mapDel l.contents uid }

inductive HitBranch where
  | noWord | noTarget | selfSlap | vetoed | crowded | cannotKill | killed | wounded
deriving DecidableEq, Repr

structure HitResult where
  branch : HitBranch
  wh : CLoc
  starts : List CLoc
  defender : Option CThing
deriving DecidableEq, Repr

/-- `state.Hit` from the core combat file, with messages elided. `wh` is the
actor's location, `starts` is `WorldStart`, `word` the resolved target UID
(`none` for empty input), `damage` the rolled damage, `startIdx` the rolled
start-location index, `fresh` the UID `NewThing` gives the corpse. -/
def hit (wh : CLoc) (starts : List CLoc) (actor : CThing) (word : Option String)
    (damage : Int) (crowdSize : Nat) (startIdx : Nat) (fresh : String) : HitResult :=
  match word with
  | none => ⟨HitBranch.noWord, wh, starts, none⟩
  | some uid =>
    let notify := decide (wh.who.length < crowdSize)
    let what? :=
      match mapGet wh.who uid with
      | some t => some t
      | none => mapGet wh.contents uid
    match what? with
    | none => ⟨HitBranch.noTarget, wh, starts, none⟩
    | some what =>
      if what = actor then ⟨HitBranch.selfSlap, wh, starts, some what⟩
      else if wh.vetoCombat ≠ "" then ⟨HitBranch.vetoed, wh, starts, some what⟩
      else if notify = false then ⟨HitBranch.crowded, wh, starts, some what⟩
      else if what.healthMaximum = 0 then ⟨HitBranch.cannotKill, wh, starts, some what⟩
      else if what.healthCurrent ≤ damage then
        let p := createCorpse fresh what wh
        let c := { p.1 with scheduled := p.1.scheduled ++ [CEvent.cleanup] }
        let wh1 := { p.2 with contents := mapSet p.2.contents fresh c }
        if what.isPlayer = false then
          let whatR := { what with healthCurrent := what.healthMaximum }
          ⟨HitBranch.killed, junkThing wh1 what.uid, starts, some whatR⟩
        else
          let what1 := { what with healthCurrent := 1 }
          let wh2 := { wh1 with who := mapDel wh1.who what.uid }
          let start := starts.getD startIdx ⟨[], [], ""⟩
          let start1 := { start with who := mapSet start.who what.uid what1 }
          ⟨HitBranch.killed, wh2, starts.set startIdx start1, some what1⟩
      else
        let what1 := { what with healthCurrent := what.healthCurrent - damage }
        let what2 :=
          if what1.scheduled.contains CEvent.health = false ∧
              what1.healthCurrent < what1.healthMaximum then
            { what1 with scheduled := what1.scheduled ++ [CEvent.health] }
          else what1
        let wh3 :=
          if (mapGet wh.who uid).isSome then { wh with who := mapSet wh.who uid what2 }
          else { wh with contents := mapSet wh.contents uid what2 }
        ⟨HitBranch.wounded, wh3, starts, some what2⟩

theorem mapSet_not_mem (m : ThingMap) (k : String) (v : CThing)
    (h : ∀ p ∈ m, p.1 ≠ k) : mapSet m k v = m ++ [(k, v)] := by
  induction m with
  | nil => rfl
  | cons p ps ih =>
    rw [mapSet, if_neg (h p (List.mem_cons_self p ps)), List.cons_append]
    rw [ih fun q hq => h q (List.mem_cons_of_mem p hq)]

theorem mapSet_append_overwrite (m : ThingMap) (k : String) (v w : CThing)
    (h : ∀ p ∈ m, p.1 ≠ k) : mapSet (m ++ [(k, v)]) k w = m ++ [(k, w)] := by
  induction m with
  | nil => simp [mapSet]
  | cons p ps ih =>
    rw [List.cons_append, mapSet, if_neg (h p (List.mem_cons_self p ps)), List.cons_append]
    rw [ih fun q hq => h q (List.mem_cons_of_mem p hq)]

theorem mapDel_not_mem (m : ThingMap) (k : String)
    (h : ∀ p ∈ m, p.1 ≠ k) : mapDel m k = m := by
  induction m with
  | nil => rfl
  | cons p ps ih =>
    rw [mapDel, if_neg (h p (List.mem_cons_self p ps))]
    rw [ih fun q hq => h q (List.mem_cons_of_mem p hq)]

theorem mapGet_mapDel_self (m : ThingMap) (k : String) :
    mapGet (mapDel m k) k = none := by
  induction m with
  | nil => rfl
  | cons p ps ih =>
    by_cases h : p.1 = k
    · rw [mapDel, if_pos h]; exact ih
    · rw [mapDel, if_neg h, mapGet, if_neg h]; exact ih

theorem mapGet_mapSet_self (m : ThingMap) (k : String) (v : CThing) :
    mapGet (mapSet m k v) k = some v := by
  induction m with
  | nil => simp [mapSet, mapGet]
  | cons p ps ih =>
    by_cases h : p.1 = k
    · rw [mapSet, if_pos h, mapGet, if_pos rfl]
    · rw [mapSet, if_neg h, mapGet, if_neg h]; exact ih

/-- **C7.** When a Hit reduces a killable target's health to zero or below
(health ≤ damage, positive maximum health, no combat veto, not crowded),
the kill branch runs: exactly one corpse — carrying the defender's name
variants, description, aliases (its old UID alias replaced by "CORPSE") and
qualifiers, with a Cleanup event scheduled — is appended to the In map of the
defender's pre-death location, the defender leaves that location's Who map,
and the defender is then either removed from the world (non-player, health
reset to maximum before junking) or placed at the rolled start location with
current health exactly 1 (player). -/
theorem hit_kill_corpse_and_respawn
    (wh : CLoc) (starts : List CLoc) (actor defender : CThing)
    (uid fresh : String) (damage : Int) (crowdSize startIdx : Nat)
    (hfind : mapGet wh.who uid = some defender)
    (hne : defender ≠ actor)
    (hveto : wh.vetoCombat = "")
    (hcrowd : wh.who.length < crowdSize)
    (hmax : 0 < defender.healthMaximum)
    (hkill : defender.healthCurrent ≤ damage)
    (hfresh : ∀ p ∈ wh.contents, p.1 ≠ fresh)
    (hfreshuid : fresh ≠ defender.uid)
    (hdefuid : ∀ p ∈ wh.contents, p.1 ≠ defender.uid)
    (hstart : startIdx < starts.length) :
    (hit wh starts actor (some uid) damage crowdSize startIdx fresh).branch =
        HitBranch.killed ∧
      (hit wh starts actor (some uid) damage crowdSize startIdx fresh).wh.contents =
        wh.contents ++ [(fresh,
          { uid := fresh, isPlayer := false, healthCurrent := 0, healthMaximum := 0,
            name := "a corpse of " ++ defender.name,
            uName := "A corpse of " ++ defender.name,
            theName := "the corpse of " ++ defender.name,
            uTheName := "The corpse of " ++ defender.name,
            description := defender.description,
            aliases := (fresh :: defender.aliases).map
              fun al => if al = defender.uid then "CORPSE" else al,
            qualifiers := defender.qualifiers,
            cleanupAfter := 60,
            onCleanup := "The corpse of " ++ defender.name ++ " turns to dust.",
            scheduled := [CEvent.cleanup] })] ∧
      mapGet (hit wh starts actor (some uid) damage crowdSize startIdx fresh).wh.who
          defender.uid = none ∧
      (defender.isPlayer = false →
        (hit wh starts actor (some uid) damage crowdSize startIdx fresh).defender =
          some { defender with healthCurrent := defender.healthMaximum }) ∧
      (defender.isPlayer = true →
        (hit wh starts actor (some uid) damage crowdSize startIdx fresh).defender =
            some { defender with healthCurrent := 1 } ∧
          mapGet (((hit wh starts actor (some uid) damage crowdSize startIdx
              fresh).starts.getD startIdx ⟨[], [], ""⟩)).who defender.uid =
            some { defender with healthCurrent := 1 }) := by
  have hnotify : decide (wh.who.length < crowdSize) = true := decide_eq_true hcrowd
  have hv : ¬ (wh.vetoCombat ≠ "") := by simp [hveto]
  have hm0 : ¬ (defender.healthMaximum = 0) := by omega
  have hcont1 : mapSet wh.contents fresh defender = wh.contents ++ [(fresh, defender)] :=
    mapSet_not_mem wh.contents fresh defender hfresh
  simp only [hit, hfind, if_neg hne, if_neg hv, hnotify, if_neg hm0, if_pos hkill,
    createCorpse, newThing, Bool.true_eq_false, if_false, hcont1]
  have hdelC : ∀ c : CThing,
      mapDel (wh.contents ++ [(fresh, c)]) defender.uid = wh.contents ++ [(fresh, c)] := by
    intro c
    refine mapDel_not_mem _ _ ?_
    intro p hp
    rcases List.mem_append.mp hp with h1 | h2
    · exact hdefuid p h1
    · rw [List.mem_singleton] at h2
      subst h2
      exact hfreshuid
  cases hp : defender.isPlayer with
  | false =>
    rw [if_pos rfl]
    refine ⟨rfl, ?_, ?_, fun _ => rfl, ?_⟩
    · simp only [junkThing]
      rw [mapSet_append_overwrite wh.contents fresh defender _ hfresh, hdelC]
      simp
    · simp only [junkThing]
      exact mapGet_mapDel_self wh.who defender.uid
    · intro h
      simp at h
  | true =>
    rw [if_neg (by decide : ¬ ((true : Bool) = false))]
    refine ⟨rfl, ?_, ?_, ?_, fun _ => ⟨rfl, ?_⟩⟩
    · rw [mapSet_append_overwrite wh.contents fresh defender _ hfresh]
      simp
    · exact mapGet_mapDel_self wh.who defender.uid
    · intro h
      simp at h
    · have hgetD : ∀ x : CLoc,
          (starts.set startIdx x).getD startIdx ⟨[], [], ""⟩ = x := by
        intro x
        rw [List.getD_eq_getElem?_getD, List.getElem?_set_self]
        · simp
        · simpa using hstart
      rw [hgetD]
      exact mapGet_mapSet_self _ defender.uid _

/-- Concrete C7 scenario: Alice and Bob share a location, Bob is a player
with health 3, the damage roll is 3. -/
def witnessActor : CThing :=
  ⟨"A1", true, 10, 10, "Alice", "Alice", "Alice", "Alice", "an alert player",
    ["ALICE", "A1"], [], 0, "", []⟩

def witnessDefender : CThing :=
  ⟨"B1", true, 3, 10, "Bob", "Bob", "Bob", "Bob", "a bored player",
    ["BOB", "B1"], [], 0, "", []⟩

def witnessWhere : CLoc :=
  ⟨[("A1", witnessActor), ("B1", witnessDefender)], [], ""⟩

def witnessStarts : List CLoc := [⟨[], [], ""⟩]

/-- Concrete instance of C7: the hit kills Bob, who respawns at the start
location with health exactly 1. -/
theorem hit_kill_corpse_and_respawn_witness :
    (hit witnessWhere witnessStarts witnessActor (some "B1") 3 10 0 "C1").branch =
        HitBranch.killed ∧
      (hit witnessWhere witnessStarts witnessActor (some "B1") 3 10 0 "C1").defender =
        some { witnessDefender with healthCurrent := 1 } ∧
      mapGet (((hit witnessWhere witnessStarts witnessActor
            (some "B1") 3 10 0 "C1").starts.getD 0 ⟨[], [], ""⟩)).who "B1" =
        some { witnessDefender with healthCurrent := 1 } := by
  have hw := hit_kill_corpse_and_respawn witnessWhere witnessStarts witnessActor
    witnessDefender "B1" "C1" 3 10 0 (by decide) (by decide) (by decide) (by decide)
    (by decide) (by decide) (by decide) (by decide) (by decide) (by decide)
  exact ⟨hw.1, (hw.2.2.2.2 rfl).1, (hw.2.2.2.2 rfl).2⟩
